import Mathlib

/-!
# Verification of the copstr bounded UTF-8 string buffer

A shallow embedding of `copstr::Str<SIZE>`: a fixed-size byte buffer
(`SIZE` bytes) plus a length cursor, with a string-like interface.
Bytes are modelled as `Nat`, Rust `char` values as Unicode scalar
values (`Nat` satisfying `IsScalar`), Rust `&str` values as lists of
scalar values, and the byte content of a `&str` as the UTF-8 encoding
of that list.
-/

set_option maxHeartbeats 1000000

/-- A Unicode scalar value: a code point that is not a surrogate. -/
def IsScalar (c : Nat) : Prop := c < 1114112 ∧ (c < 55296 ∨ 57344 ≤ c)

instance (c : Nat) : Decidable (IsScalar c) := by
  unfold IsScalar; infer_instance

/-- Every element of the list is a Unicode scalar value (a Rust `char`). -/
def ScalarList (s : List Nat) : Prop := ∀ c ∈ s, IsScalar c

instance (s : List Nat) : Decidable (ScalarList s) := by
  unfold ScalarList; infer_instance

/-- UTF-8 encoding of one scalar value, as in `char::encode_utf8`. -/
def encodeChar (c : Nat) : List Nat :=
  if c < 128 then [c]
  else if c < 2048 then [192 + c / 64, 128 + c % 64]
  else if c < 65536 then [224 + c / 4096, 128 + (c / 64) % 64, 128 + c % 64]
  else [240 + c / 262144, 128 + (c / 4096) % 64, 128 + (c / 64) % 64, 128 + c % 64]

/-- UTF-8 encoding of a string (list of scalar values): `str::as_bytes`. -/
def encodeStr : List Nat → List Nat
  | [] => []
  | c :: cs => encodeChar c ++ encodeStr cs

/-- Valid second bytes for a three-byte sequence, per the table used by
`str::from_utf8` (overlong forms and surrogates rejected). -/
def cont3 (b0 b1 : Nat) : Prop :=
  (b0 = 224 ∧ 160 ≤ b1 ∧ b1 ≤ 191) ∨
  (225 ≤ b0 ∧ b0 ≤ 236 ∧ 128 ≤ b1 ∧ b1 ≤ 191) ∨
  (b0 = 237 ∧ 128 ≤ b1 ∧ b1 ≤ 159) ∨
  (238 ≤ b0 ∧ b0 ≤ 239 ∧ 128 ≤ b1 ∧ b1 ≤ 191)

instance (b0 b1 : Nat) : Decidable (cont3 b0 b1) := by
  unfold cont3; infer_instance

/-- Valid second bytes for a four-byte sequence, per the table used by
`str::from_utf8` (overlong forms and values above U+10FFFF rejected). -/
def cont4 (b0 b1 : Nat) : Prop :=
  (b0 = 240 ∧ 144 ≤ b1 ∧ b1 ≤ 191) ∨
  (241 ≤ b0 ∧ b0 ≤ 243 ∧ 128 ≤ b1 ∧ b1 ≤ 191) ∨
  (b0 = 244 ∧ 128 ≤ b1 ∧ b1 ≤ 143)

instance (b0 b1 : Nat) : Decidable (cont4 b0 b1) := by
  unfold cont4; infer_instance

/-- One step of `str::from_utf8`'s validation: read one UTF-8 encoded
scalar value from the front of `bs`, per the standard validation table
(lead byte classifies; continuation bytes must fall in per-position
ranges, rejecting overlong forms, surrogates and values above
U+10FFFF).  Missing continuation bytes read as the default 0, which
fails every continuation range check, so a truncated sequence is
rejected exactly as in the source. -/
def decodeOne : List Nat → Option (Nat × List Nat)
  | [] => none
  | b0 :: bs =>
    let b1 := bs.getD 0 0
    let b2 := bs.getD 1 0
    let b3 := bs.getD 2 0
    if b0 < 128 then some (b0, bs)
    else if 194 ≤ b0 ∧ b0 ≤ 223 then
      if 128 ≤ b1 ∧ b1 ≤ 191 then some ((b0 - 192) * 64 + (b1 - 128), bs.drop 1)
      else none
    else if 224 ≤ b0 ∧ b0 ≤ 239 then
      if cont3 b0 b1 ∧ 128 ≤ b2 ∧ b2 ≤ 191 then
        some ((b0 - 224) * 4096 + (b1 - 128) * 64 + (b2 - 128), bs.drop 2)
      else none
    else if 240 ≤ b0 ∧ b0 ≤ 244 then
      if cont4 b0 b1 ∧ 128 ≤ b2 ∧ b2 ≤ 191 ∧ 128 ≤ b3 ∧ b3 ≤ 191 then
        some ((b0 - 240) * 262144 + (b1 - 128) * 4096 +
          (b2 - 128) * 64 + (b3 - 128), bs.drop 3)
      else none
    else none

/-- Validation loop, fuelled to make the recursion structural; one unit
of fuel is spent per decoded scalar value, so `bs.length` fuel always
suffices. -/
def utf8DecodeGo : Nat → List Nat → Option (List Nat)
  | _, [] => some []
  | 0, _ :: _ => none
  | fuel + 1, b0 :: bs =>
    (decodeOne (b0 :: bs)).bind (fun p => (utf8DecodeGo fuel p.2).map (p.1 :: ·))

/-- UTF-8 validation and decoding, as in `str::from_utf8`: returns the
decoded scalar values when the bytes are well-formed UTF-8, `none`
otherwise. -/
def utf8Decode (bs : List Nat) : Option (List Nat) :=
  utf8DecodeGo bs.length bs

/-! ## The `Str<SIZE>` data type and its operations -/

/-- `copstr::Str<SIZE>`: a `SIZE`-byte storage array and a length cursor
(fields `.0` and `.1` of the Rust tuple struct). -/
structure Str (SIZE : Nat) where
  buf : List Nat
  len : Nat
deriving DecidableEq

/-- Overwrite `buf[i .. i + src.length)` with `src`, keeping the rest:
the effect of `copy_from_slice` into a `split_at_mut` window. -/
def writeAt (buf : List Nat) (i : Nat) (src : List Nat) : List Nat :=
  buf.take i ++ src ++ buf.drop (i + src.length)

/-- `ErrorOverflow`: the overflow-only error value. -/
inductive ErrorOverflow where
  | mk
deriving DecidableEq

/-- The composite `copstr::Error`: overflow or invalid UTF-8. -/
inductive Error where
  | overflow (e : ErrorOverflow)
  | utf8
deriving DecidableEq

/-- `Str::EMPTY` (also the `Default` instance): zeroed storage, length 0. -/
def Str.EMPTY (SIZE : Nat) : Str SIZE := ⟨List.replicate SIZE 0, 0⟩

/-- `Str::capacity`. -/
def Str.capacity {SIZE : Nat} (_ : Str SIZE) : Nat := SIZE

/-- `Str::byte_len`. -/
def Str.byte_len {SIZE : Nat} (s : Str SIZE) : Nat := s.len

/-- `Str::as_str`: the byte view `self.0[0..self.1]`
(`from_utf8_unchecked` performs no conversion). -/
def Str.as_str {SIZE : Nat} (s : Str SIZE) : List Nat := s.buf.take s.len

/-- `Str::push`: append one scalar value's encoding if it fits.  Returns
the Rust result paired with the post-call state of `self`. -/
def Str.push {SIZE : Nat} (s : Str SIZE) (ch : Nat) :
    Except ErrorOverflow Unit × Str SIZE :=
  let result := encodeChar ch
  if result.length > s.capacity - s.byte_len then (.error .mk, s)
  else (.ok (), ⟨writeAt s.buf s.len result, s.len + result.length⟩)

/-- `Str::replace`: overwrite the whole content if the bytes fit.  Returns
the Rust result paired with the post-call state of `self`. -/
def Str.replace {SIZE : Nat} (s : Str SIZE) (string : List Nat) :
    Except ErrorOverflow Unit × Str SIZE :=
  let bytes := encodeStr string
  if bytes.length > s.capacity then (.error .mk, s)
  else (.ok (), ⟨writeAt s.buf 0 bytes, bytes.length⟩)

/-- The push loop shared by `replace_trunc` and `FromIterator`: push the
scalar values in order, stopping at the first failed push. -/
def pushList {SIZE : Nat} (s : Str SIZE) : List Nat → Str SIZE
  | [] => s
  | ch :: rest =>
    match s.push ch with
    | (.ok _, s2) => pushList s2 rest
    | (.error _, _) => s

/-- `Str::replace_trunc`: reset the length to 0, then push each scalar
value of the input, returning at the first that does not fit. -/
def Str.replace_trunc {SIZE : Nat} (s : Str SIZE) (string : List Nat) : Str SIZE :=
  pushList ⟨s.buf, 0⟩ string

/-- `Str::new`: start from `Default` (EMPTY) and `replace`. -/
def Str.new (SIZE : Nat) (string : List Nat) : Except ErrorOverflow (Str SIZE) :=
  match (Str.EMPTY SIZE).replace string with
  | (.ok _, s) => .ok s
  | (.error e, _) => .error e

/-- `Str::new_trunc`: start from `Default` (EMPTY) and `replace_trunc`. -/
def Str.new_trunc (SIZE : Nat) (string : List Nat) : Str SIZE :=
  (Str.EMPTY SIZE).replace_trunc string

/-- `Str::new_const_trunc_u8`: copy the first `min(SIZE, bytes.len())`
bytes verbatim into zeroed storage, set the length to that count. -/
def Str.new_const_trunc_u8 (SIZE : Nat) (bytes : List Nat) : Str SIZE :=
  let len := if SIZE < bytes.length then SIZE else bytes.length
  ⟨writeAt (List.replicate SIZE 0) 0 (bytes.take len), len⟩

/-- `Str::new_const_u8`: `assert!(bytes.len() <= SIZE)` (modelled as
`none` on panic), then `new_const_trunc_u8`. -/
def Str.new_const_u8 (SIZE : Nat) (bytes : List Nat) : Option (Str SIZE) :=
  if bytes.length ≤ SIZE then some (Str.new_const_trunc_u8 SIZE bytes) else none

/-- `Str::new_const`: `new_const_u8` on the string's bytes. -/
def Str.new_const (SIZE : Nat) (string : List Nat) : Option (Str SIZE) :=
  Str.new_const_u8 SIZE (encodeStr string)

/-- `Str::new_const_trunc`: `new_const_trunc_u8` on the string's bytes. -/
def Str.new_const_trunc (SIZE : Nat) (string : List Nat) : Str SIZE :=
  Str.new_const_trunc_u8 SIZE (encodeStr string)

/-- `TryFrom<&str> for Str`: delegates to `Str::new`. -/
def Str.try_from_str (SIZE : Nat) (string : List Nat) : Except ErrorOverflow (Str SIZE) :=
  Str.new SIZE string

/-- `FromStr for Str`: delegates to `TryFrom<&str>`. -/
def Str.from_str (SIZE : Nat) (string : List Nat) : Except ErrorOverflow (Str SIZE) :=
  Str.try_from_str SIZE string

/-- `TryFrom<&[u8]> for Str`: `str::from_utf8`, then `Str::new`, with the
`?` operator lifting both error kinds into `Error`. -/
def Str.try_from_u8 (SIZE : Nat) (arr : List Nat) : Except Error (Str SIZE) :=
  match utf8Decode arr with
  | none => .error .utf8
  | some s =>
    match Str.new SIZE s with
    | .error e => .error (.overflow e)
    | .ok v => .ok v

/-- `FromIterator<char> for Str`: push each scalar value, breaking at the
first failed push, starting from `Default` (EMPTY). -/
def Str.from_iter (SIZE : Nat) (chars : List Nat) : Str SIZE :=
  pushList (Str.EMPTY SIZE) chars

/-- `PartialEq for Str`: `self.as_str() == other.as_str()`. -/
def Str.eqOp {SIZE : Nat} (a b : Str SIZE) : Bool := a.as_str == b.as_str

/-- `Hash for Str` feeds exactly `self.as_str()` to the hasher, so the
hash value is `H` applied to `as_str` for the hasher's function `H`. -/
def Str.hashWith {SIZE : Nat} (H : List Nat → Nat) (s : Str SIZE) : Nat :=
  H s.as_str

/-- The structural part of the representation invariant: the storage is
exactly `SIZE` bytes (guaranteed by the Rust array type) and the cursor
is in bounds. -/
def StrWF {SIZE : Nat} (s : Str SIZE) : Prop :=
  s.buf.length = SIZE ∧ s.len ≤ SIZE

/-- The representation invariant of a healthy buffer: the storage is
exactly `SIZE` bytes, the cursor is in bounds, and the in-use prefix is
the UTF-8 encoding of some string of scalar values. -/
def StrValid {SIZE : Nat} (s : Str SIZE) : Prop :=
  s.buf.length = SIZE ∧ s.len ≤ SIZE ∧
    ∃ cs, ScalarList cs ∧ s.as_str = encodeStr cs

/-- Specification-side function: the greedy prefix of a string whose
UTF-8 encoding fits in `budget` bytes, taken whole scalar value by
whole scalar value.  Proved below to be the longest such prefix. -/
def takeFit (budget : Nat) : List Nat → List Nat
  | [] => []
  | c :: rest =>
    if (encodeChar c).length ≤ budget then
      c :: takeFit (budget - (encodeChar c).length) rest
    else []

/-- Buffer values reachable through the public API, with the Rust type
system's constraints on the inputs (`&str` arguments are valid UTF-8,
`char` arguments are scalar values) but no constraint beyond the types
on the byte-slice inputs of the const-context constructors — exactly
the calls Rust accepts. -/
inductive Reachable (SIZE : Nat) : Str SIZE → Prop where
  | empty : Reachable SIZE (Str.EMPTY SIZE)
  | new_ok {string : List Nat} {v : Str SIZE} : ScalarList string →
      Str.new SIZE string = .ok v → Reachable SIZE v
  | new_trunc {string : List Nat} : ScalarList string →
      Reachable SIZE (Str.new_trunc SIZE string)
  | new_const_ok {string : List Nat} {v : Str SIZE} : ScalarList string →
      Str.new_const SIZE string = some v → Reachable SIZE v
  | new_const_trunc {string : List Nat} : ScalarList string →
      Reachable SIZE (Str.new_const_trunc SIZE string)
  | new_const_u8_ok {bytes : List Nat} {v : Str SIZE} :
      Str.new_const_u8 SIZE bytes = some v → Reachable SIZE v
  | new_const_trunc_u8 {bytes : List Nat} :
      Reachable SIZE (Str.new_const_trunc_u8 SIZE bytes)
  | try_from_u8_ok {arr : List Nat} {v : Str SIZE} :
      Str.try_from_u8 SIZE arr = .ok v → Reachable SIZE v
  | from_iter {chars : List Nat} : ScalarList chars →
      Reachable SIZE (Str.from_iter SIZE chars)
  | push {s : Str SIZE} {ch : Nat} : Reachable SIZE s → IsScalar ch →
      Reachable SIZE (s.push ch).2
  | replace {s : Str SIZE} {string : List Nat} : Reachable SIZE s →
      ScalarList string → Reachable SIZE (s.replace string).2
  | replace_trunc {s : Str SIZE} {string : List Nat} : Reachable SIZE s →
      ScalarList string → Reachable SIZE (s.replace_trunc string)

/-- Like `Reachable`, but the const-context constructors (documented as
not validating UTF-8) are only invoked on well-formed UTF-8 byte input
that fits in `SIZE` bytes, so that no truncation mid-code-point and no
raw invalid bytes can enter the buffer. -/
inductive ReachableSafe (SIZE : Nat) : Str SIZE → Prop where
  | empty : ReachableSafe SIZE (Str.EMPTY SIZE)
  | new_ok {string : List Nat} {v : Str SIZE} : ScalarList string →
      Str.new SIZE string = .ok v → ReachableSafe SIZE v
  | new_trunc {string : List Nat} : ScalarList string →
      ReachableSafe SIZE (Str.new_trunc SIZE string)
  | new_const_ok {string : List Nat} {v : Str SIZE} : ScalarList string →
      Str.new_const SIZE string = some v → ReachableSafe SIZE v
  | new_const_trunc {string : List Nat} : ScalarList string →
      (encodeStr string).length ≤ SIZE →
      ReachableSafe SIZE (Str.new_const_trunc SIZE string)
  | new_const_u8_ok {bytes cs : List Nat} {v : Str SIZE} : ScalarList cs →
      bytes = encodeStr cs →
      Str.new_const_u8 SIZE bytes = some v → ReachableSafe SIZE v
  | new_const_trunc_u8 {bytes cs : List Nat} : ScalarList cs →
      bytes = encodeStr cs → bytes.length ≤ SIZE →
      ReachableSafe SIZE (Str.new_const_trunc_u8 SIZE bytes)
  | try_from_u8_ok {arr : List Nat} {v : Str SIZE} :
      Str.try_from_u8 SIZE arr = .ok v → ReachableSafe SIZE v
  | from_iter {chars : List Nat} : ScalarList chars →
      ReachableSafe SIZE (Str.from_iter SIZE chars)
  | push {s : Str SIZE} {ch : Nat} : ReachableSafe SIZE s → IsScalar ch →
      ReachableSafe SIZE (s.push ch).2
  | replace {s : Str SIZE} {string : List Nat} : ReachableSafe SIZE s →
      ScalarList string → ReachableSafe SIZE (s.replace string).2
  | replace_trunc {s : Str SIZE} {string : List Nat} : ReachableSafe SIZE s →
      ScalarList string → ReachableSafe SIZE (s.replace_trunc string)

/-! ## Lemmas about the UTF-8 coder -/

theorem encodeChar_length_pos (c : Nat) : 0 < (encodeChar c).length := by
  unfold encodeChar
  split_ifs <;> simp

theorem encodeStr_append (a b : List Nat) :
    encodeStr (a ++ b) = encodeStr a ++ encodeStr b := by
  induction a with
  | nil => rfl
  | cons c cs ih => simp [encodeStr, ih]

theorem decodeOne_length {bs rest : List Nat} {c : Nat}
    (h : decodeOne bs = some (c, rest)) : rest.length < bs.length := by
  match bs with
  | [] => exact Option.noConfusion h
  | b0 :: bs =>
    simp only [decodeOne] at h
    split_ifs at h <;>
      simp only [Option.some.injEq, Prod.mk.injEq] at h <;>
      obtain ⟨-, h2⟩ := h <;>
      subst h2 <;>
      simp [List.length_drop] <;> omega

theorem utf8DecodeGo_fuel {fuel : Nat} : ∀ {bs : List Nat} {fuel' : Nat},
    bs.length ≤ fuel → bs.length ≤ fuel' →
    utf8DecodeGo fuel bs = utf8DecodeGo fuel' bs := by
  induction fuel with
  | zero =>
    intro bs fuel' hf hf'
    match bs with
    | [] => cases fuel' <;> rfl
    | b :: bs => simp only [List.length_cons] at hf; omega
  | succ fuel ih =>
    intro bs fuel' hf hf'
    match bs with
    | [] => cases fuel' <;> rfl
    | b0 :: bs =>
      match fuel' with
      | 0 => simp only [List.length_cons] at hf'; omega
      | fuel'' + 1 =>
        simp only [utf8DecodeGo]
        cases hd : decodeOne (b0 :: bs) with
        | none => rfl
        | some p =>
          obtain ⟨c, rest⟩ := p
          have hr := decodeOne_length hd
          simp only [List.length_cons] at hf hf' hr
          have h1 : rest.length ≤ fuel := by omega
          have h2 : rest.length ≤ fuel'' := by omega
          simp only [Option.some_bind]
          rw [ih h1 h2]

theorem utf8Decode_cons_eq (b0 : Nat) (bs : List Nat) :
    utf8Decode (b0 :: bs) =
      (decodeOne (b0 :: bs)).bind
        (fun p => (utf8Decode p.2).map (p.1 :: ·)) := by
  show utf8DecodeGo (b0 :: bs).length (b0 :: bs) = _
  simp only [List.length_cons, utf8DecodeGo]
  cases hd : decodeOne (b0 :: bs) with
  | none => rfl
  | some p =>
    obtain ⟨c, rest⟩ := p
    have hr := decodeOne_length hd
    simp only [List.length_cons] at hr
    have h1 : rest.length ≤ bs.length := by omega
    simp only [Option.some_bind]
    rw [utf8DecodeGo_fuel h1 (le_refl rest.length)]
    rfl

theorem decodeOne_shape1 (b0 : Nat) (bs : List Nat) (h : b0 < 128) :
    decodeOne (b0 :: bs) = some (b0, bs) := by
  simp only [decodeOne, if_pos h]

theorem decodeOne_shape2 (b0 b1 : Nat) (bs : List Nat)
    (h0 : 194 ≤ b0 ∧ b0 ≤ 223) (h1 : 128 ≤ b1 ∧ b1 ≤ 191) :
    decodeOne (b0 :: b1 :: bs) = some ((b0 - 192) * 64 + (b1 - 128), bs) := by
  have hn : ¬ b0 < 128 := by omega
  simp only [decodeOne, List.getD_cons_zero, if_neg hn, if_pos h0, if_pos h1,
    List.drop_succ_cons, List.drop_zero]

theorem decodeOne_shape3 (b0 b1 b2 : Nat) (bs : List Nat)
    (h0 : 224 ≤ b0 ∧ b0 ≤ 239) (h1 : cont3 b0 b1) (h2 : 128 ≤ b2 ∧ b2 ≤ 191) :
    decodeOne (b0 :: b1 :: b2 :: bs) =
      some ((b0 - 224) * 4096 + (b1 - 128) * 64 + (b2 - 128), bs) := by
  have hn : ¬ b0 < 128 := by omega
  have hn2 : ¬ (194 ≤ b0 ∧ b0 ≤ 223) := by omega
  simp only [decodeOne, List.getD_cons_zero, List.getD_cons_succ, if_neg hn,
    if_neg hn2, if_pos h0, if_pos (And.intro h1 h2),
    List.drop_succ_cons, List.drop_zero]

theorem decodeOne_shape4 (b0 b1 b2 b3 : Nat) (bs : List Nat)
    (h0 : 240 ≤ b0 ∧ b0 ≤ 244) (h1 : cont4 b0 b1)
    (h2 : 128 ≤ b2 ∧ b2 ≤ 191) (h3 : 128 ≤ b3 ∧ b3 ≤ 191) :
    decodeOne (b0 :: b1 :: b2 :: b3 :: bs) =
      some ((b0 - 240) * 262144 + (b1 - 128) * 4096 +
        (b2 - 128) * 64 + (b3 - 128), bs) := by
  have hn : ¬ b0 < 128 := by omega
  have hn2 : ¬ (194 ≤ b0 ∧ b0 ≤ 223) := by omega
  have hn3 : ¬ (224 ≤ b0 ∧ b0 ≤ 239) := by omega
  simp only [decodeOne, List.getD_cons_zero, List.getD_cons_succ, if_neg hn,
    if_neg hn2, if_neg hn3, if_pos h0,
    if_pos (show cont4 b0 b1 ∧ 128 ≤ b2 ∧ b2 ≤ 191 ∧ 128 ≤ b3 ∧ b3 ≤ 191 from
      ⟨h1, h2.1, h2.2, h3.1, h3.2⟩),
    List.drop_succ_cons, List.drop_zero]

theorem utf8Decode_cons1 (b0 : Nat) (bs : List Nat) (h : b0 < 128) :
    utf8Decode (b0 :: bs) = (utf8Decode bs).map (b0 :: ·) := by
  rw [utf8Decode_cons_eq, decodeOne_shape1 b0 bs h, Option.some_bind]

theorem utf8Decode_cons2 (b0 b1 : Nat) (bs : List Nat)
    (h0 : 194 ≤ b0 ∧ b0 ≤ 223) (h1 : 128 ≤ b1 ∧ b1 ≤ 191) :
    utf8Decode (b0 :: b1 :: bs) =
      (utf8Decode bs).map (((b0 - 192) * 64 + (b1 - 128)) :: ·) := by
  rw [utf8Decode_cons_eq, decodeOne_shape2 b0 b1 bs h0 h1, Option.some_bind]

theorem utf8Decode_cons3 (b0 b1 b2 : Nat) (bs : List Nat)
    (h0 : 224 ≤ b0 ∧ b0 ≤ 239) (h1 : cont3 b0 b1) (h2 : 128 ≤ b2 ∧ b2 ≤ 191) :
    utf8Decode (b0 :: b1 :: b2 :: bs) =
      (utf8Decode bs).map
        (((b0 - 224) * 4096 + (b1 - 128) * 64 + (b2 - 128)) :: ·) := by
  rw [utf8Decode_cons_eq, decodeOne_shape3 b0 b1 b2 bs h0 h1 h2, Option.some_bind]

theorem utf8Decode_cons4 (b0 b1 b2 b3 : Nat) (bs : List Nat)
    (h0 : 240 ≤ b0 ∧ b0 ≤ 244) (h1 : cont4 b0 b1)
    (h2 : 128 ≤ b2 ∧ b2 ≤ 191) (h3 : 128 ≤ b3 ∧ b3 ≤ 191) :
    utf8Decode (b0 :: b1 :: b2 :: b3 :: bs) =
      (utf8Decode bs).map
        (((b0 - 240) * 262144 + (b1 - 128) * 4096 +
          (b2 - 128) * 64 + (b3 - 128)) :: ·) := by
  rw [utf8Decode_cons_eq, decodeOne_shape4 b0 b1 b2 b3 bs h0 h1 h2 h3,
    Option.some_bind]

theorem utf8Decode_encodeChar (c : Nat) (h : IsScalar c) (bs : List Nat) :
    utf8Decode (encodeChar c ++ bs) = (utf8Decode bs).map (c :: ·) := by
  obtain ⟨hlt, hsur⟩ := h
  by_cases h1 : c < 128
  · rw [show encodeChar c = [c] from by simp [encodeChar, h1]]
    exact utf8Decode_cons1 c bs h1
  · by_cases h2 : c < 2048
    · rw [show encodeChar c = [192 + c / 64, 128 + c % 64] from by
        simp [encodeChar, h1, h2]]
      rw [List.cons_append, List.cons_append, List.nil_append,
        utf8Decode_cons2 _ _ _ (by omega) (by omega)]
      have hv : (192 + c / 64 - 192) * 64 + (128 + c % 64 - 128) = c := by omega
      rw [hv]
    · by_cases h3 : c < 65536
      · rw [show encodeChar c =
            [224 + c / 4096, 128 + (c / 64) % 64, 128 + c % 64] from by
          simp [encodeChar, h1, h2, h3]]
        rw [List.cons_append, List.cons_append, List.cons_append, List.nil_append,
          utf8Decode_cons3 _ _ _ _ (by omega) (by unfold cont3; omega) (by omega)]
        have hv : (224 + c / 4096 - 224) * 4096 + (128 + (c / 64) % 64 - 128) * 64 +
            (128 + c % 64 - 128) = c := by omega
        rw [hv]
      · rw [show encodeChar c =
            [240 + c / 262144, 128 + (c / 4096) % 64,
             128 + (c / 64) % 64, 128 + c % 64] from by
          simp [encodeChar, h1, h2, h3]]
        rw [List.cons_append, List.cons_append, List.cons_append, List.cons_append,
          List.nil_append,
          utf8Decode_cons4 _ _ _ _ _ (by omega) (by unfold cont4; omega)
            (by omega) (by omega)]
        have hv : (240 + c / 262144 - 240) * 262144 + (128 + (c / 4096) % 64 - 128) * 4096 +
            (128 + (c / 64) % 64 - 128) * 64 + (128 + c % 64 - 128) = c := by omega
        rw [hv]

theorem utf8Decode_encodeStr_append (cs : List Nat) (h : ScalarList cs) (bs : List Nat) :
    utf8Decode (encodeStr cs ++ bs) = (utf8Decode bs).map (cs ++ ·) := by
  induction cs with
  | nil =>
    rw [show encodeStr [] = [] from rfl, List.nil_append]
    cases utf8Decode bs <;> rfl
  | cons c cs ih =>
    rw [encodeStr, List.append_assoc,
      utf8Decode_encodeChar c (h c (List.mem_cons_self c cs)) _,
      ih (fun x hx => h x (List.mem_cons_of_mem c hx))]
    cases utf8Decode bs <;> rfl

theorem utf8Decode_encodeStr (cs : List Nat) (h : ScalarList cs) :
    utf8Decode (encodeStr cs) = some cs := by
  have h2 := utf8Decode_encodeStr_append cs h []
  rw [List.append_nil] at h2
  rw [h2, show utf8Decode [] = some [] from rfl]
  simp

theorem decodeOne_scalar {bs rest : List Nat} {c : Nat}
    (h : decodeOne bs = some (c, rest)) : IsScalar c := by
  match bs with
  | [] => exact Option.noConfusion h
  | b0 :: bs =>
    simp only [decodeOne] at h
    split_ifs at h with i1 i2 i3 i4 i5 i6 i7 <;>
      simp only [Option.some.injEq, Prod.mk.injEq] at h
    · obtain ⟨h1, -⟩ := h
      exact ⟨by omega, by omega⟩
    · obtain ⟨h1, -⟩ := h
      exact ⟨by omega, by omega⟩
    · obtain ⟨h1, -⟩ := h
      unfold cont3 at i5
      exact ⟨by omega, by omega⟩
    · obtain ⟨h1, -⟩ := h
      unfold cont4 at i7
      exact ⟨by omega, by omega⟩

theorem utf8DecodeGo_scalar {fuel : Nat} : ∀ {bs cs : List Nat},
    utf8DecodeGo fuel bs = some cs → ScalarList cs := by
  induction fuel with
  | zero =>
    intro bs cs h
    match bs with
    | [] =>
      simp only [utf8DecodeGo, Option.some.injEq] at h
      subst h
      intro c hc
      exact absurd hc (List.not_mem_nil c)
    | b :: bs => exact Option.noConfusion h
  | succ fuel ih =>
    intro bs cs h
    match bs with
    | [] =>
      simp only [utf8DecodeGo, Option.some.injEq] at h
      subst h
      intro c hc
      exact absurd hc (List.not_mem_nil c)
    | b0 :: bs =>
      simp only [utf8DecodeGo] at h
      cases hd : decodeOne (b0 :: bs) with
      | none => rw [hd] at h; exact Option.noConfusion h
      | some p =>
        obtain ⟨c, rest⟩ := p
        rw [hd] at h
        simp only [Option.some_bind, Option.map_eq_some'] at h
        obtain ⟨cs', hcs', rfl⟩ := h
        intro x hx
        rcases List.mem_cons.mp hx with rfl | hx2
        · exact decodeOne_scalar hd
        · exact ih hcs' x hx2

theorem utf8Decode_scalar {bs cs : List Nat} (h : utf8Decode bs = some cs) :
    ScalarList cs :=
  utf8DecodeGo_scalar h

/-! ## Lemmas about `writeAt` and the buffer view -/

theorem writeAt_length (buf src : List Nat) (i : Nat)
    (h : i + src.length ≤ buf.length) :
    (writeAt buf i src).length = buf.length := by
  simp only [writeAt, List.length_append, List.length_take, List.length_drop]
  omega

theorem writeAt_take (buf src : List Nat) (i : Nat)
    (h : i + src.length ≤ buf.length) :
    (writeAt buf i src).take (i + src.length) = buf.take i ++ src := by
  rw [writeAt]
  refine List.take_left' ?_
  simp only [List.length_append, List.length_take]
  omega

theorem writeAt_zero_take (buf src : List Nat) (h : src.length ≤ buf.length) :
    (writeAt buf 0 src).take src.length = src := by
  have h2 := writeAt_take buf src 0 (by omega)
  simpa using h2

/-! ## Behaviour of the individual operations -/

theorem encodeStr_singleton (c : Nat) : encodeStr [c] = encodeChar c := by
  simp [encodeStr]

theorem ScalarList.append {a b : List Nat} (ha : ScalarList a)
    (hb : ScalarList b) : ScalarList (a ++ b) := fun c hc =>
  (List.mem_append.mp hc).elim (ha c) (hb c)

theorem push_err_spec {SIZE : Nat} {s : Str SIZE} {c : Nat}
    (h : SIZE - s.len < (encodeChar c).length) :
    s.push c = (.error .mk, s) := by
  simp only [Str.push, Str.capacity, Str.byte_len, gt_iff_lt, if_pos h]

theorem push_ok_spec {SIZE : Nat} {s : Str SIZE} {c : Nat}
    (h : (encodeChar c).length ≤ SIZE - s.len) :
    s.push c = (.ok (), ⟨writeAt s.buf s.len (encodeChar c),
      s.len + (encodeChar c).length⟩) := by
  simp only [Str.push, Str.capacity, Str.byte_len, gt_iff_lt,
    if_neg (by omega : ¬ SIZE - s.len < (encodeChar c).length)]

theorem push_ok_view {SIZE : Nat} {s : Str SIZE} {c : Nat}
    (hb : s.buf.length = SIZE) (h : (encodeChar c).length ≤ SIZE - s.len) :
    (s.push c).2.as_str = s.as_str ++ encodeChar c ∧
    (s.push c).2.len = s.len + (encodeChar c).length ∧
    (s.push c).2.buf.length = SIZE := by
  have hk := encodeChar_length_pos c
  have hle : s.len + (encodeChar c).length ≤ SIZE := by omega
  rw [push_ok_spec h]
  refine ⟨?_, rfl, ?_⟩
  · show (writeAt s.buf s.len (encodeChar c)).take (s.len + (encodeChar c).length) =
      s.buf.take s.len ++ encodeChar c
    exact writeAt_take s.buf (encodeChar c) s.len (by omega)
  · show (writeAt s.buf s.len (encodeChar c)).length = SIZE
    rw [writeAt_length s.buf (encodeChar c) s.len (by omega)]
    exact hb

theorem push_wf {SIZE : Nat} {s : Str SIZE} (h : StrWF s) (ch : Nat) :
    StrWF (s.push ch).2 := by
  obtain ⟨hb, hl⟩ := h
  by_cases hfit : SIZE - s.len < (encodeChar ch).length
  · rw [push_err_spec hfit]
    exact ⟨hb, hl⟩
  · have hk := encodeChar_length_pos ch
    obtain ⟨-, h2, h3⟩ := push_ok_view (c := ch) hb (by omega)
    exact ⟨h3, by omega⟩

theorem push_valid {SIZE : Nat} {s : Str SIZE} {ch : Nat}
    (h : StrValid s) (hch : IsScalar ch) : StrValid (s.push ch).2 := by
  obtain ⟨hb, hl, cs, hcs, hstr⟩ := h
  by_cases hfit : SIZE - s.len < (encodeChar ch).length
  · rw [push_err_spec hfit]
    exact ⟨hb, hl, cs, hcs, hstr⟩
  · have hk := encodeChar_length_pos ch
    obtain ⟨h1, h2, h3⟩ := push_ok_view (c := ch) hb (by omega)
    refine ⟨h3, by omega, cs ++ [ch], ?_, ?_⟩
    · exact ScalarList.append hcs (fun x hx => by
        rw [List.mem_singleton.mp hx]; exact hch)
    · rw [h1, hstr, encodeStr_append, encodeStr_singleton]

theorem replace_err_spec {SIZE : Nat} {s : Str SIZE} {t : List Nat}
    (h : SIZE < (encodeStr t).length) :
    s.replace t = (.error .mk, s) := by
  simp only [Str.replace, Str.capacity, gt_iff_lt, if_pos h]

theorem replace_ok_spec {SIZE : Nat} {s : Str SIZE} {t : List Nat}
    (h : (encodeStr t).length ≤ SIZE) :
    s.replace t = (.ok (), ⟨writeAt s.buf 0 (encodeStr t), (encodeStr t).length⟩) := by
  simp only [Str.replace, Str.capacity, gt_iff_lt,
    if_neg (by omega : ¬ SIZE < (encodeStr t).length)]

theorem replace_ok_view {SIZE : Nat} {s : Str SIZE} {t : List Nat}
    (hb : s.buf.length = SIZE) (h : (encodeStr t).length ≤ SIZE) :
    (s.replace t).2.as_str = encodeStr t ∧
    (s.replace t).2.len = (encodeStr t).length ∧
    (s.replace t).2.buf.length = SIZE := by
  rw [replace_ok_spec h]
  refine ⟨?_, rfl, ?_⟩
  · show (writeAt s.buf 0 (encodeStr t)).take (encodeStr t).length = encodeStr t
    exact writeAt_zero_take s.buf (encodeStr t) (by omega)
  · show (writeAt s.buf 0 (encodeStr t)).length = SIZE
    rw [writeAt_length s.buf (encodeStr t) 0 (by omega)]
    exact hb

theorem replace_valid {SIZE : Nat} {s : Str SIZE} {t : List Nat}
    (h : StrValid s) (ht : ScalarList t) : StrValid (s.replace t).2 := by
  obtain ⟨hb, hl, cs, hcs, hstr⟩ := h
  by_cases hfit : SIZE < (encodeStr t).length
  · rw [replace_err_spec hfit]
    exact ⟨hb, hl, cs, hcs, hstr⟩
  · obtain ⟨h1, h2, h3⟩ := replace_ok_view (t := t) hb (by omega)
    exact ⟨h3, by omega, t, ht, h1⟩

theorem pushList_valid {SIZE : Nat} (l : List Nat) : ∀ s : Str SIZE,
    ScalarList l → StrValid s → StrValid (pushList s l) := by
  induction l with
  | nil => intro s _ hs; exact hs
  | cons ch rest ih =>
    intro s hl hs
    have hch : IsScalar ch := hl ch (List.mem_cons_self ch rest)
    have hrest : ScalarList rest := fun x hx => hl x (List.mem_cons_of_mem ch hx)
    have hv := push_valid hs hch
    rw [pushList]
    cases hp : s.push ch with
    | mk r s2 =>
      rw [hp] at hv
      cases r with
      | ok u => exact ih s2 hrest hv
      | error e => exact hs

theorem pushList_wf {SIZE : Nat} (l : List Nat) : ∀ s : Str SIZE,
    StrWF s → StrWF (pushList s l) := by
  induction l with
  | nil => intro s hs; exact hs
  | cons ch rest ih =>
    intro s hs
    have hv := push_wf hs ch
    rw [pushList]
    cases hp : s.push ch with
    | mk r s2 =>
      rw [hp] at hv
      cases r with
      | ok u => exact ih s2 hv
      | error e => exact hs

theorem EMPTY_valid (SIZE : Nat) : StrValid (Str.EMPTY SIZE) := by
  refine ⟨by simp [Str.EMPTY], by simp [Str.EMPTY], [], ?_, rfl⟩
  intro c hc
  exact absurd hc (List.not_mem_nil c)

theorem new_ok_spec {SIZE : Nat} {t : List Nat}
    (h : (encodeStr t).length ≤ SIZE) :
    Str.new SIZE t = .ok ((Str.EMPTY SIZE).replace t).2 := by
  rw [Str.new, replace_ok_spec h]

theorem new_err_spec {SIZE : Nat} {t : List Nat}
    (h : SIZE < (encodeStr t).length) :
    Str.new SIZE t = .error .mk := by
  rw [Str.new, replace_err_spec h]

theorem new_ok_valid {SIZE : Nat} {t : List Nat} {v : Str SIZE}
    (ht : ScalarList t) (h : Str.new SIZE t = .ok v) : StrValid v := by
  by_cases hfit : SIZE < (encodeStr t).length
  · rw [new_err_spec hfit] at h
    exact Except.noConfusion h
  · rw [new_ok_spec (by omega)] at h
    have hv : v = ((Str.EMPTY SIZE).replace t).2 := by
      cases h; rfl
    rw [hv]
    exact replace_valid (EMPTY_valid SIZE) ht

theorem new_const_trunc_u8_full {SIZE : Nat} {bytes : List Nat}
    (h : bytes.length ≤ SIZE) :
    (Str.new_const_trunc_u8 SIZE bytes).as_str = bytes ∧
    (Str.new_const_trunc_u8 SIZE bytes).len = bytes.length ∧
    (Str.new_const_trunc_u8 SIZE bytes).buf.length = SIZE := by
  have hlen : (if SIZE < bytes.length then SIZE else bytes.length) = bytes.length := by
    rw [if_neg (by omega)]
  have htk : bytes.take bytes.length = bytes := by simp
  refine ⟨?_, ?_, ?_⟩
  · show (writeAt (List.replicate SIZE 0) 0
      (bytes.take (if SIZE < bytes.length then SIZE else bytes.length))).take
        (if SIZE < bytes.length then SIZE else bytes.length) = bytes
    rw [hlen, htk]
    exact writeAt_zero_take _ _ (by simp; omega)
  · show (if SIZE < bytes.length then SIZE else bytes.length) = bytes.length
    exact hlen
  · show (writeAt (List.replicate SIZE 0) 0
      (bytes.take (if SIZE < bytes.length then SIZE else bytes.length))).length = SIZE
    rw [hlen, htk, writeAt_length _ _ _ (by simp; omega)]
    simp

theorem new_const_trunc_u8_wf (SIZE : Nat) (bytes : List Nat) :
    StrWF (Str.new_const_trunc_u8 SIZE bytes) := by
  constructor
  · show (writeAt (List.replicate SIZE 0) 0
      (bytes.take (if SIZE < bytes.length then SIZE else bytes.length))).length = SIZE
    rw [writeAt_length _ _ _ (by
      simp only [List.length_replicate, List.length_take, Nat.zero_add]
      split_ifs <;> omega)]
    exact List.length_replicate SIZE 0
  · show (if SIZE < bytes.length then SIZE else bytes.length) ≤ SIZE
    split_ifs <;> omega

theorem new_const_u8_some {SIZE : Nat} {bytes : List Nat} {v : Str SIZE}
    (h : Str.new_const_u8 SIZE bytes = some v) :
    bytes.length ≤ SIZE ∧ v = Str.new_const_trunc_u8 SIZE bytes := by
  by_cases hle : bytes.length ≤ SIZE
  · rw [Str.new_const_u8, if_pos hle] at h
    exact ⟨hle, (Option.some.injEq _ _ ▸ h).symm⟩
  · rw [Str.new_const_u8, if_neg hle] at h
    exact Option.noConfusion h

theorem try_from_u8_ok_inv {SIZE : Nat} {arr : List Nat} {v : Str SIZE}
    (h : Str.try_from_u8 SIZE arr = .ok v) :
    ∃ cs, utf8Decode arr = some cs ∧ Str.new SIZE cs = .ok v := by
  rw [Str.try_from_u8] at h
  split at h
  · exact Except.noConfusion h
  · rename_i cs hd
    split at h
    · exact Except.noConfusion h
    · rename_i w hn
      cases h
      exact ⟨cs, hd, hn⟩

/-! ## The greedy truncation function -/

theorem takeFit_front (budget : Nat) (l : List Nat) :
    ∃ r, takeFit budget l ++ r = l := by
  induction l generalizing budget with
  | nil => exact ⟨[], rfl⟩
  | cons c rest ih =>
    rw [takeFit]
    split_ifs with h
    · obtain ⟨r, hr⟩ := ih (budget - (encodeChar c).length)
      exact ⟨r, by rw [List.cons_append, hr]⟩
    · exact ⟨c :: rest, rfl⟩

theorem takeFit_fits (budget : Nat) (l : List Nat) :
    (encodeStr (takeFit budget l)).length ≤ budget := by
  induction l generalizing budget with
  | nil => simp [takeFit, encodeStr]
  | cons c rest ih =>
    rw [takeFit]
    split_ifs with h
    · rw [encodeStr]
      simp only [List.length_append]
      have h2 := ih (budget - (encodeChar c).length)
      omega
    · simp [encodeStr]

theorem takeFit_longest (q : List Nat) : ∀ (budget : Nat) (r : List Nat),
    (encodeStr q).length ≤ budget →
    q.length ≤ (takeFit budget (q ++ r)).length := by
  induction q with
  | nil => intro budget r _; simp
  | cons c q ih =>
    intro budget r hq
    rw [encodeStr] at hq
    simp only [List.length_append] at hq
    have hk := encodeChar_length_pos c
    rw [List.cons_append, takeFit, if_pos (by omega)]
    simp only [List.length_cons]
    have h2 := ih (budget - (encodeChar c).length) r (by omega)
    omega

theorem pushList_view {SIZE : Nat} (l : List Nat) : ∀ (buf : List Nat) (len : Nat),
    buf.length = SIZE → len ≤ SIZE →
    (pushList (⟨buf, len⟩ : Str SIZE) l).as_str =
      buf.take len ++ encodeStr (takeFit (SIZE - len) l) ∧
    (pushList (⟨buf, len⟩ : Str SIZE) l).len =
      len + (encodeStr (takeFit (SIZE - len) l)).length := by
  induction l with
  | nil =>
    intro buf len hb hl
    simp [pushList, takeFit, encodeStr, Str.as_str]
  | cons ch rest ih =>
    intro buf len hb hl
    have hk := encodeChar_length_pos ch
    rw [pushList, takeFit]
    by_cases hfit : (encodeChar ch).length ≤ SIZE - len
    · have h2le : len + (encodeChar ch).length ≤ SIZE := by omega
      have hpush : (⟨buf, len⟩ : Str SIZE).push ch =
          (.ok (), ⟨writeAt buf len (encodeChar ch), len + (encodeChar ch).length⟩) := by
        simpa using push_ok_spec (s := ⟨buf, len⟩) hfit
      rw [hpush, if_pos hfit]
      have hb2 : (writeAt buf len (encodeChar ch)).length = SIZE := by
        rw [writeAt_length _ _ _ (by omega)]
        exact hb
      obtain ⟨ha, hlen⟩ := ih (writeAt buf len (encodeChar ch))
        (len + (encodeChar ch).length) hb2 h2le
      constructor
      · show (pushList (⟨writeAt buf len (encodeChar ch),
            len + (encodeChar ch).length⟩ : Str SIZE) rest).as_str = _
        rw [ha, writeAt_take buf (encodeChar ch) len (by omega), encodeStr,
          List.append_assoc]
        have hbud : SIZE - (len + (encodeChar ch).length) =
            SIZE - len - (encodeChar ch).length := by omega
        rw [hbud]
      · show (pushList (⟨writeAt buf len (encodeChar ch),
            len + (encodeChar ch).length⟩ : Str SIZE) rest).len = _
        rw [hlen, encodeStr]
        simp only [List.length_append]
        have hbud : SIZE - (len + (encodeChar ch).length) =
            SIZE - len - (encodeChar ch).length := by omega
        rw [hbud]
        omega
    · have hpush : (⟨buf, len⟩ : Str SIZE).push ch = (.error .mk, ⟨buf, len⟩) := by
        simpa using push_err_spec (s := ⟨buf, len⟩)
          (by show SIZE - len < (encodeChar ch).length; omega)
      rw [hpush, if_neg hfit]
      simp [Str.as_str, encodeStr]

/-! ## The representation invariant along every API path -/

theorem valid_wf {SIZE : Nat} {s : Str SIZE} (h : StrValid s) : StrWF s :=
  ⟨h.1, h.2.1⟩

theorem replace_trunc_valid {SIZE : Nat} {s : Str SIZE} {t : List Nat}
    (hb : s.buf.length = SIZE) (ht : ScalarList t) :
    StrValid (s.replace_trunc t) := by
  rw [Str.replace_trunc]
  exact pushList_valid t ⟨s.buf, 0⟩ ht
    ⟨hb, Nat.zero_le SIZE, [], fun c hc => absurd hc (List.not_mem_nil c), rfl⟩

theorem replace_trunc_wf {SIZE : Nat} {s : Str SIZE} (hb : s.buf.length = SIZE)
    (t : List Nat) : StrWF (s.replace_trunc t) := by
  rw [Str.replace_trunc]
  exact pushList_wf t ⟨s.buf, 0⟩ ⟨hb, Nat.zero_le SIZE⟩

theorem replace_wf {SIZE : Nat} {s : Str SIZE} (h : StrWF s) (t : List Nat) :
    StrWF (s.replace t).2 := by
  obtain ⟨hb, hl⟩ := h
  by_cases hfit : SIZE < (encodeStr t).length
  · rw [replace_err_spec hfit]
    exact ⟨hb, hl⟩
  · obtain ⟨-, h2, h3⟩ := replace_ok_view (t := t) hb (by omega)
    exact ⟨h3, by omega⟩

theorem new_const_trunc_u8_valid {SIZE : Nat} {cs : List Nat} (hcs : ScalarList cs)
    (hle : (encodeStr cs).length ≤ SIZE) :
    StrValid (Str.new_const_trunc_u8 SIZE (encodeStr cs)) := by
  obtain ⟨h1, h2, h3⟩ := new_const_trunc_u8_full hle
  exact ⟨h3, by omega, cs, hcs, h1⟩

theorem reachableSafe_valid {SIZE : Nat} {s : Str SIZE}
    (h : ReachableSafe SIZE s) : StrValid s := by
  induction h with
  | empty => exact EMPTY_valid SIZE
  | new_ok hsc hok => exact new_ok_valid hsc hok
  | new_trunc hsc =>
    exact replace_trunc_valid (by simp [Str.EMPTY]) hsc
  | new_const_ok hsc hok =>
    obtain ⟨hle, rfl⟩ := new_const_u8_some hok
    exact new_const_trunc_u8_valid hsc hle
  | new_const_trunc hsc hle =>
    exact new_const_trunc_u8_valid hsc hle
  | new_const_u8_ok hcs hbytes hok =>
    subst hbytes
    obtain ⟨hle, rfl⟩ := new_const_u8_some hok
    exact new_const_trunc_u8_valid hcs hle
  | new_const_trunc_u8 hcs hbytes hle =>
    subst hbytes
    exact new_const_trunc_u8_valid hcs hle
  | try_from_u8_ok hok =>
    obtain ⟨cs, hd, hn⟩ := try_from_u8_ok_inv hok
    exact new_ok_valid (utf8Decode_scalar hd) hn
  | from_iter hsc => exact pushList_valid _ _ hsc (EMPTY_valid SIZE)
  | push _ hch ih => exact push_valid ih hch
  | replace _ hsc ih => exact replace_valid ih hsc
  | replace_trunc _ hsc ih => exact replace_trunc_valid ih.1 hsc

theorem reachable_wf {SIZE : Nat} {s : Str SIZE}
    (h : Reachable SIZE s) : StrWF s := by
  induction h with
  | empty => exact valid_wf (EMPTY_valid SIZE)
  | new_ok hsc hok => exact valid_wf (new_ok_valid hsc hok)
  | new_trunc hsc => exact replace_trunc_wf (by simp [Str.EMPTY]) _
  | new_const_ok hsc hok =>
    obtain ⟨hle, rfl⟩ := new_const_u8_some hok
    exact new_const_trunc_u8_wf SIZE _
  | new_const_trunc hsc => exact new_const_trunc_u8_wf SIZE _
  | new_const_u8_ok hok =>
    obtain ⟨hle, rfl⟩ := new_const_u8_some hok
    exact new_const_trunc_u8_wf SIZE _
  | new_const_trunc_u8 => exact new_const_trunc_u8_wf SIZE _
  | try_from_u8_ok hok =>
    obtain ⟨cs, hd, hn⟩ := try_from_u8_ok_inv hok
    exact valid_wf (new_ok_valid (utf8Decode_scalar hd) hn)
  | from_iter hsc => exact pushList_wf _ _ (valid_wf (EMPTY_valid SIZE))
  | push _ hch ih => exact push_wf ih _
  | replace _ hsc ih => exact replace_wf ih _
  | replace_trunc _ hsc ih => exact replace_trunc_wf ih.1 _

/-! ## The claims -/

/-- Claim C1, counterexample: a buffer produced by the const-context
truncating constructor `new_const_trunc` from the valid one-character
string "💖" (U+1F496) at capacity 3 is reachable through a constructor
of the API, yet its `as_str` byte view is not well-formed UTF-8 — the
4-byte encoding is cut after 3 bytes.  This refutes the claim as
stated for the const-context constructors. -/
theorem claimC1_counterexample :
    Reachable 3 (Str.new_const_trunc 3 [128150]) ∧
    utf8Decode (Str.new_const_trunc 3 [128150]).as_str = none :=
  ⟨Reachable.new_const_trunc (by decide), by decide⟩

/-- Claim C1, amended: for every buffer reachable through the API with
the const-context constructors restricted to well-formed UTF-8 input
that fits whole in `SIZE` bytes (their documented safe use), the bytes
`[0, byte_len)` read back by `as_str` are well-formed UTF-8, decoding
to a sequence of Unicode scalar values. -/
theorem claimC1_amended {SIZE : Nat} {s : Str SIZE}
    (h : ReachableSafe SIZE s) :
    ∃ cs, ScalarList cs ∧ utf8Decode s.as_str = some cs := by
  obtain ⟨-, -, cs, hcs, hstr⟩ := reachableSafe_valid h
  exact ⟨cs, hcs, by rw [hstr]; exact utf8Decode_encodeStr cs hcs⟩

theorem claimC1_witness :
    ∃ cs, ScalarList cs ∧ utf8Decode (Str.EMPTY 4).as_str = some cs :=
  claimC1_amended ReachableSafe.empty

/-- Claim C2: for every buffer of declared capacity `SIZE` reachable by
any sequence of API operations (any constructor, `push`, `replace`,
`replace_trunc`, collect), `byte_len ≤ SIZE` holds. -/
theorem claimC2 {SIZE : Nat} {s : Str SIZE} (h : Reachable SIZE s) :
    s.byte_len ≤ SIZE :=
  (reachable_wf h).2

theorem claimC2_witness : (Str.EMPTY 5).byte_len ≤ 5 :=
  claimC2 Reachable.empty

/-- Claim C3: for valid UTF-8 text `t`, if its byte length is at most
`SIZE` then the strict constructor (`Str::new` / `TryFrom<&str>`)
succeeds and the result's `as_str` equals `t`'s bytes exactly; if the
byte length exceeds `SIZE` it fails with the overflow error and no
buffer is produced. -/
theorem claimC3 (SIZE : Nat) (t : List Nat) (ht : ScalarList t) :
    ((encodeStr t).length ≤ SIZE →
      ∃ v : Str SIZE, Str.new SIZE t = .ok v ∧ Str.try_from_str SIZE t = .ok v ∧
        v.as_str = encodeStr t) ∧
    (SIZE < (encodeStr t).length →
      Str.new SIZE t = .error .mk ∧ Str.try_from_str SIZE t = .error .mk) := by
  constructor
  · intro hle
    refine ⟨((Str.EMPTY SIZE).replace t).2, new_ok_spec hle, new_ok_spec hle, ?_⟩
    exact (replace_ok_view (by simp [Str.EMPTY]) hle).1
  · intro hgt
    exact ⟨new_err_spec hgt, new_err_spec hgt⟩

theorem claimC3_witness :
    ∃ v : Str 5, Str.new 5 [121, 101, 115] = .ok v ∧
      Str.try_from_str 5 [121, 101, 115] = .ok v ∧
      v.as_str = encodeStr [121, 101, 115] :=
  (claimC3 5 [121, 101, 115] (by decide)).1 (by decide)

/-- Claim C4: `new_trunc` produces exactly the longest prefix of the
input, counted in whole Unicode scalar values, whose UTF-8 encoding is
at most `SIZE` bytes; the result is never longer than `SIZE` bytes and,
being the encoding of whole scalar values, never ends inside a
multi-byte encoding. -/
theorem claimC4 (SIZE : Nat) (t : List Nat) (ht : ScalarList t) :
    ∃ p r, p ++ r = t ∧
      (encodeStr p).length ≤ SIZE ∧
      (∀ q u, q ++ u = t → (encodeStr q).length ≤ SIZE → q.length ≤ p.length) ∧
      (Str.new_trunc SIZE t).as_str = encodeStr p ∧
      (Str.new_trunc SIZE t).byte_len ≤ SIZE := by
  obtain ⟨r, hr⟩ := takeFit_front SIZE t
  obtain ⟨ha, hl⟩ := pushList_view t (List.replicate SIZE 0) 0 (by simp)
    (Nat.zero_le SIZE)
  simp only [List.take_zero, List.nil_append, Nat.sub_zero, Nat.zero_add] at ha hl
  refine ⟨takeFit SIZE t, r, hr, takeFit_fits SIZE t, ?_, ?_, ?_⟩
  · intro q u hqu hq
    have h2 := takeFit_longest q SIZE u hq
    rw [hqu] at h2
    exact h2
  · exact ha
  · show (Str.new_trunc SIZE t).len ≤ SIZE
    have hlen : (Str.new_trunc SIZE t).len =
        (encodeStr (takeFit SIZE t)).length := hl
    rw [hlen]
    exact takeFit_fits SIZE t

theorem claimC4_witness :
    ∃ p r, p ++ r = [98, 97, 115, 128150] ∧
      (encodeStr p).length ≤ 5 ∧
      (∀ q u, q ++ u = [98, 97, 115, 128150] →
        (encodeStr q).length ≤ 5 → q.length ≤ p.length) ∧
      (Str.new_trunc 5 [98, 97, 115, 128150]).as_str = encodeStr p ∧
      (Str.new_trunc 5 [98, 97, 115, 128150]).byte_len ≤ 5 :=
  claimC4 5 [98, 97, 115, 128150] (by decide)

/-- Claim C5: `push` of a scalar value whose encoded size exceeds
`SIZE − byte_len` returns the overflow error and leaves the buffer
byte-for-byte unchanged (storage and length); otherwise it succeeds and
appends exactly the scalar's encoding. -/
theorem claimC5 {SIZE : Nat} (s : Str SIZE) (ch : Nat) (hch : IsScalar ch)
    (hb : s.buf.length = SIZE) :
    (SIZE - s.byte_len < (encodeChar ch).length →
      s.push ch = (.error .mk, s)) ∧
    ((encodeChar ch).length ≤ SIZE - s.byte_len →
      (s.push ch).1 = .ok () ∧
      (s.push ch).2.as_str = s.as_str ++ encodeChar ch ∧
      (s.push ch).2.byte_len = s.byte_len + (encodeChar ch).length) := by
  constructor
  · exact push_err_spec
  · intro hfit
    obtain ⟨h1, h2, h3⟩ := push_ok_view (c := ch) hb hfit
    refine ⟨?_, h1, h2⟩
    rw [push_ok_spec hfit]

theorem claimC5_witness :
    ((Str.EMPTY 2).push 119).1 = .ok () ∧
    ((Str.EMPTY 2).push 119).2.as_str = (Str.EMPTY 2).as_str ++ encodeChar 119 ∧
    ((Str.EMPTY 2).push 119).2.byte_len =
      (Str.EMPTY 2).byte_len + (encodeChar 119).length :=
  (claimC5 (Str.EMPTY 2) 119 (by decide) (by decide)).2 (by decide)

/-- Claim C6: a failed `replace` (text too long) leaves the observable
content — `as_str` and `byte_len` — exactly as before the call; a
successful one installs exactly the new text. -/
theorem claimC6 {SIZE : Nat} (s : Str SIZE) (t : List Nat) (ht : ScalarList t)
    (hb : s.buf.length = SIZE) :
    (SIZE < (encodeStr t).length →
      (s.replace t).1 = .error .mk ∧
      (s.replace t).2.as_str = s.as_str ∧
      (s.replace t).2.byte_len = s.byte_len) ∧
    ((encodeStr t).length ≤ SIZE →
      (s.replace t).1 = .ok () ∧ (s.replace t).2.as_str = encodeStr t) := by
  constructor
  · intro hgt
    rw [replace_err_spec hgt]
    exact ⟨rfl, rfl, rfl⟩
  · intro hle
    obtain ⟨h1, -, -⟩ := replace_ok_view (t := t) hb hle
    exact ⟨by rw [replace_ok_spec hle], h1⟩

theorem claimC6_witness :
    ((Str.EMPTY 2).replace [121, 101, 115]).1 = .error .mk ∧
    ((Str.EMPTY 2).replace [121, 101, 115]).2.as_str = (Str.EMPTY 2).as_str ∧
    ((Str.EMPTY 2).replace [121, 101, 115]).2.byte_len = (Str.EMPTY 2).byte_len :=
  (claimC6 (Str.EMPTY 2) [121, 101, 115] (by decide) (by decide)).1 (by decide)

/-- Claim C7: the byte-slice constructor rejects every byte sequence
that is not well-formed UTF-8 with the `Utf8` variant of the composite
error and never with `Overflow` (even when short enough to fit); on
well-formed bytes it behaves as the strict text constructor with the
overflow error mapped into the composite error. -/
theorem claimC7 (SIZE : Nat) (arr : List Nat) :
    (utf8Decode arr = none →
      Str.try_from_u8 SIZE arr = .error .utf8 ∧
      ∀ e, Str.try_from_u8 SIZE arr ≠ .error (.overflow e)) ∧
    (∀ cs, utf8Decode arr = some cs →
      Str.try_from_u8 SIZE arr =
        (match Str.new SIZE cs with
         | .ok v => .ok v
         | .error e => .error (.overflow e))) := by
  constructor
  · intro hd
    have h1 : Str.try_from_u8 SIZE arr = .error .utf8 := by
      rw [Str.try_from_u8, hd]
    refine ⟨h1, fun e hc => ?_⟩
    rw [h1] at hc
    simp at hc
  · intro cs hd
    rw [Str.try_from_u8, hd]
    show (match Str.new SIZE cs with
          | .error e => Except.error (Error.overflow e)
          | .ok v => .ok v) = _
    cases Str.new SIZE cs <;> rfl

theorem claimC7_witness :
    Str.try_from_u8 16 [0, 159, 146, 150] = .error .utf8 ∧
    ∀ e, Str.try_from_u8 16 [0, 159, 146, 150] ≠ .error (.overflow e) :=
  (claimC7 16 [0, 159, 146, 150]).1 (by decide)

/-- Claim C8: two buffers of the same capacity are equal under the
source's equality exactly when their `as_str` views are equal (capacity
and unused tail bytes are irrelevant), and equal buffers hash alike,
the hash being a function of `as_str` alone. -/
theorem claimC8 {SIZE : Nat} (a b : Str SIZE) :
    (Str.eqOp a b = true ↔ a.as_str = b.as_str) ∧
    (Str.eqOp a b = true → ∀ H : List Nat → Nat,
      Str.hashWith H a = Str.hashWith H b) := by
  have hiff : Str.eqOp a b = true ↔ a.as_str = b.as_str := by
    rw [Str.eqOp]
    exact beq_iff_eq
  exact ⟨hiff, fun h H => by rw [Str.hashWith, Str.hashWith, hiff.mp h]⟩

theorem claimC8_witness :
    Str.hashWith List.length (Str.mk [97, 0] 1 : Str 2) =
      Str.hashWith List.length (Str.mk [97, 255] 1 : Str 2) :=
  (claimC8 (Str.mk [97, 0] 1) (Str.mk [97, 255] 1)).2 (by decide) List.length

/-- Claim C9: collecting a finite sequence of scalar values into a
buffer (`FromIterator<char>`: push each in order, stopping silently at
the first that would overflow) yields a buffer equal to `new_trunc`
applied to the concatenation of the sequence. -/
theorem claimC9 (SIZE : Nat) (chars : List Nat) (h : ScalarList chars) :
    Str.from_iter SIZE chars = Str.new_trunc SIZE chars := rfl

theorem claimC9_witness :
    Str.from_iter 5 [98, 97, 115, 128150] =
      Str.new_trunc 5 [98, 97, 115, 128150] :=
  claimC9 5 [98, 97, 115, 128150] (by decide)

/-- Claim C10: `new_const_trunc_u8` returns a buffer whose length is
`min(SIZE, bytes.len())` and whose in-use prefix is the first
`min(SIZE, bytes.len())` bytes of the input copied verbatim — a raw
byte cut with no code-point-boundary adjustment and no UTF-8
validation — and `new_const_trunc` is exactly this applied to the
string's bytes. -/
theorem claimC10 (SIZE : Nat) (bytes t : List Nat) :
    (Str.new_const_trunc_u8 SIZE bytes).byte_len = min SIZE bytes.length ∧
    (Str.new_const_trunc_u8 SIZE bytes).as_str =
      bytes.take (min SIZE bytes.length) ∧
    Str.new_const_trunc SIZE t = Str.new_const_trunc_u8 SIZE (encodeStr t) := by
  have hmin : (if SIZE < bytes.length then SIZE else bytes.length) =
      min SIZE bytes.length := by
    rw [Nat.min_def]
    split_ifs <;> omega
  refine ⟨?_, ?_, rfl⟩
  · show (if SIZE < bytes.length then SIZE else bytes.length) =
      min SIZE bytes.length
    exact hmin
  · show (writeAt (List.replicate SIZE 0) 0
        (bytes.take (if SIZE < bytes.length then SIZE else bytes.length))).take
        (if SIZE < bytes.length then SIZE else bytes.length) =
      bytes.take (min SIZE bytes.length)
    rw [hmin]
    have hlen : (bytes.take (min SIZE bytes.length)).length =
        min SIZE bytes.length := by
      rw [List.length_take]
      omega
    have h2 := writeAt_zero_take (List.replicate SIZE 0)
      (bytes.take (min SIZE bytes.length))
      (by rw [hlen]; simp)
    rw [hlen] at h2
    exact h2

example : utf8Decode [121, 101, 115] = some [121, 101, 115] := by decide
example : utf8Decode [0, 159, 146, 150] = none := by decide
example : encodeChar 128150 = [240, 159, 146, 150] := by decide
example : utf8Decode [240, 159, 146, 150] = some [128150] := by decide
example : utf8Decode [237, 160, 128] = none := by decide
example : utf8Decode [196, 145] = some [273] := by decide
example : (Str.new 5 [121, 101, 115]).map (fun v => v.as_str) = .ok [121, 101, 115] := rfl
example : Str.new 2 [121, 101, 115] = .error .mk := rfl
example : (Str.new_trunc 5 [115, 116, 114, 105, 110, 103, 115]).as_str =
    [115, 116, 114, 105, 110] := by decide
example : (Str.new_trunc 5 [98, 97, 115, 128150]).as_str = [98, 97, 115] := by decide
example : (Str.new_const_trunc 3 [128150]).as_str = [240, 159, 146] := by decide
example : utf8Decode (Str.new_const_trunc 3 [128150]).as_str = none := by decide
